import Mathlib

/-!
Verification of the interval-overlap counting and double-count-correction
engine of `camparee/intron_quant.py` (`IntronQuantificationStep.execute`).

The Python code is shallowly embedded: sorted coordinate arrays become
`List ℕ`, touched-bin sets become `Finset ℕ`, the `collections.Counter`
tables become total functions with default `0` (exactly the Counter read
semantics), and the dict of normalized counts whose *presence* matters is
an `ℕ → Option ℚ` map.  All numeric counts are `ℚ` (Python floats are
exact here: the claims are about algebraic structure, not rounding).
-/

namespace IntronQuant

/-- `numpy.searchsorted(xs, v, side="right")` as used on the sorted
per-chromosome coordinate arrays (`intron_quant.py` lines 113, 116):
for a sorted array it returns the index of the first element strictly
greater than `v`, i.e. the number of leading elements `≤ v`. -/
def searchsortedRight (xs : List ℕ) (v : ℕ) : ℕ :=
  match xs with
  | [] => 0
  | x :: rest => if v < x then 0 else searchsortedRight rest v + 1

/-- One block of the interval-overlap resolution (`intron_quant.py`
lines 110–127, and identically 129–139 and 144–153): given the sorted
`starts`/`ends` arrays of one axis and a block `[s, e]` in 1-based
inclusive coordinates, compute the set of touched bin indices.
`lastBefore` is `numpy.searchsorted(starts, s, "right") - 1` (may be
`-1`), `firstAfter` is `numpy.searchsorted(starts, e, "right")`; the
three-way case split mirrors the source's `if/elif/else`. -/
def blockTouched (starts ends : List ℕ) (s e : ℕ) : Finset ℕ :=
  let lastBefore : ℤ := (searchsortedRight starts s : ℤ) - 1
  let firstAfter : ℕ := searchsortedRight starts e
  if lastBefore = -1 then
    Finset.Ico 0 firstAfter
  else if ends.getD lastBefore.toNat 0 ≥ s then
    Finset.Ico lastBefore.toNat firstAfter
  else
    Finset.Ico (lastBefore.toNat + 1) firstAfter

theorem searchsortedRight_le_length (xs : List ℕ) (v : ℕ) :
    searchsortedRight xs v ≤ xs.length := by
  induction xs with
  | nil => simp [searchsortedRight]
  | cons x rest ih =>
    simp only [searchsortedRight, List.length_cons]
    split
    · omega
    · omega

theorem getD_le_of_lt_searchsortedRight (xs : List ℕ) (v i : ℕ)
    (h : i < searchsortedRight xs v) : xs.getD i 0 ≤ v := by
  induction xs generalizing i with
  | nil => simp [searchsortedRight] at h
  | cons x rest ih =>
    simp only [searchsortedRight] at h
    by_cases hv : v < x
    · simp [hv] at h
    · simp only [hv, if_false] at h
      cases i with
      | zero => simpa using Nat.le_of_not_lt hv
      | succ j =>
        simp only [List.getD_cons_succ]
        exact ih j (by omega)

theorem sorted_head_lt_getD {x : ℕ} {rest : List ℕ}
    (hs : List.Sorted (· < ·) (x :: rest)) {j : ℕ} (hj : j < rest.length) :
    x < rest.getD j 0 := by
  have hmem : rest.getD j 0 ∈ rest := by
    rw [List.getD_eq_getElem rest 0 hj]
    exact List.getElem_mem hj
  exact (List.sorted_cons.mp hs).1 _ hmem

theorem lt_getD_of_searchsortedRight_le (xs : List ℕ) (v i : ℕ)
    (hs : List.Sorted (· < ·) xs)
    (h : searchsortedRight xs v ≤ i) (hi : i < xs.length) :
    v < xs.getD i 0 := by
  induction xs generalizing i with
  | nil => simp at hi
  | cons x rest ih =>
    simp only [searchsortedRight] at h
    by_cases hv : v < x
    · cases i with
      | zero => simpa using hv
      | succ j =>
        simp only [List.getD_cons_succ]
        have hj : j < rest.length := by simpa using hi
        exact lt_trans hv (sorted_head_lt_getD hs hj)
    · simp only [hv, if_false] at h
      cases i with
      | zero => omega
      | succ j =>
        simp only [List.getD_cons_succ]
        exact ih j (List.sorted_cons.mp hs).2 (by omega) (by simpa using hi)

theorem sorted_getD_mono (xs : List ℕ) (hs : List.Sorted (· < ·) xs)
    {i j : ℕ} (hij : i ≤ j) (hj : j < xs.length) :
    xs.getD i 0 ≤ xs.getD j 0 := by
  rcases Nat.eq_or_lt_of_le hij with rfl | hlt
  · exact le_refl _
  · have hi : i < xs.length := lt_trans hlt hj
    rw [List.getD_eq_getElem xs 0 hi, List.getD_eq_getElem xs 0 hj]
    exact le_of_lt (List.pairwise_iff_getElem.mp hs i j hi hj hlt)

/-- C4: for every aligned block `[s, e]` (1-based, inclusive) and every
strictly start-sorted, mutually non-overlapping parallel bin array, the
resolver's three-way case analysis (`intron_quant.py` lines 110–127)
returns exactly the set of indices of bins whose interval intersects the
block: `k` is touched iff `starts[k] ≤ e` and `s ≤ ends[k]`. -/
theorem blockTouched_exact
    (starts ends : List ℕ)
    (hlen : starts.length = ends.length)
    (hsorted : List.Sorted (· < ·) starts)
    (hvalid : ∀ i, i < starts.length → starts.getD i 0 ≤ ends.getD i 0)
    (hdisj : ∀ i, i + 1 < starts.length → ends.getD i 0 < starts.getD (i + 1) 0)
    (s e : ℕ) (hse : s ≤ e) (k : ℕ) :
    k ∈ blockTouched starts ends s e ↔
      k < starts.length ∧ starts.getD k 0 ≤ e ∧ s ≤ ends.getD k 0 := by
  have hRlen : searchsortedRight starts e ≤ starts.length :=
    searchsortedRight_le_length starts e
  by_cases h0 : searchsortedRight starts s = 0
  · have hmem : k ∈ blockTouched starts ends s e ↔ k < searchsortedRight starts e := by
      simp [blockTouched, h0, Finset.mem_Ico]
    rw [hmem]
    constructor
    · intro hk
      have hkl : k < starts.length := lt_of_lt_of_le hk hRlen
      refine ⟨hkl, getD_le_of_lt_searchsortedRight _ _ _ hk, ?_⟩
      have hsk : s < starts.getD k 0 :=
        lt_getD_of_searchsortedRight_le starts s k hsorted (by omega) hkl
      exact le_trans (le_of_lt hsk) (hvalid k hkl)
    · rintro ⟨hkl, hke, -⟩
      by_contra hnk
      have := lt_getD_of_searchsortedRight_le starts e k hsorted (Nat.le_of_not_lt hnk) hkl
      omega
  · have hLp1 : 1 ≤ searchsortedRight starts s := Nat.one_le_iff_ne_zero.mpr h0
    have hLplen : searchsortedRight starts s ≤ starts.length :=
      searchsortedRight_le_length starts s
    have hLlt : searchsortedRight starts s - 1 < starts.length := by omega
    have hstartsL : starts.getD (searchsortedRight starts s - 1) 0 ≤ s :=
      getD_le_of_lt_searchsortedRight _ _ _ (by omega)
    have hneg : ¬ ((searchsortedRight starts s : ℤ) - 1 = -1) := by omega
    have htoNat : ((searchsortedRight starts s : ℤ) - 1).toNat =
        searchsortedRight starts s - 1 := by omega
    by_cases hendL : s ≤ ends.getD (searchsortedRight starts s - 1) 0
    · have hmem : k ∈ blockTouched starts ends s e ↔
          (searchsortedRight starts s - 1 ≤ k ∧ k < searchsortedRight starts e) := by
        simp only [blockTouched]
        rw [if_neg hneg, htoNat, if_pos hendL, Finset.mem_Ico]
      rw [hmem]
      constructor
      · rintro ⟨hLk, hkR⟩
        have hkl : k < starts.length := lt_of_lt_of_le hkR hRlen
        refine ⟨hkl, getD_le_of_lt_searchsortedRight _ _ _ hkR, ?_⟩
        rcases Nat.eq_or_lt_of_le hLk with heq | hlt
        · rw [← heq]; exact hendL
        · have hsk : s < starts.getD k 0 :=
            lt_getD_of_searchsortedRight_le starts s k hsorted (by omega) hkl
          exact le_trans (le_of_lt hsk) (hvalid k hkl)
      · rintro ⟨hkl, hke, hsk⟩
        have hkR : k < searchsortedRight starts e := by
          by_contra hnk
          have := lt_getD_of_searchsortedRight_le starts e k hsorted (Nat.le_of_not_lt hnk) hkl
          omega
        refine ⟨?_, hkR⟩
        by_contra hnk
        have hk1 : k + 1 ≤ searchsortedRight starts s - 1 := by omega
        have h1 : ends.getD k 0 < starts.getD (k + 1) 0 := hdisj k (by omega)
        have h2 : starts.getD (k + 1) 0 ≤ starts.getD (searchsortedRight starts s - 1) 0 :=
          sorted_getD_mono starts hsorted hk1 hLlt
        omega
    · have hmem : k ∈ blockTouched starts ends s e ↔
          (searchsortedRight starts s - 1 + 1 ≤ k ∧ k < searchsortedRight starts e) := by
        simp only [blockTouched]
        rw [if_neg hneg, htoNat, if_neg hendL, Finset.mem_Ico]
      rw [hmem]
      constructor
      · rintro ⟨hLk, hkR⟩
        have hkl : k < starts.length := lt_of_lt_of_le hkR hRlen
        refine ⟨hkl, getD_le_of_lt_searchsortedRight _ _ _ hkR, ?_⟩
        have hsk : s < starts.getD k 0 :=
          lt_getD_of_searchsortedRight_le starts s k hsorted (by omega) hkl
        exact le_trans (le_of_lt hsk) (hvalid k hkl)
      · rintro ⟨hkl, hke, hsk⟩
        have hkR : k < searchsortedRight starts e := by
          by_contra hnk
          have := lt_getD_of_searchsortedRight_le starts e k hsorted (Nat.le_of_not_lt hnk) hkl
          omega
        refine ⟨?_, hkR⟩
        by_contra hnk
        rcases Nat.eq_or_lt_of_le (Nat.le_of_not_lt (by omega : ¬ searchsortedRight starts s - 1 < k)) with heq | hlt
        · subst heq; omega
        · have hk1 : k + 1 ≤ searchsortedRight starts s - 1 := by omega
          have h1 : ends.getD k 0 < starts.getD (k + 1) 0 := hdisj k (by omega)
          have h2 : starts.getD (k + 1) 0 ≤ starts.getD (searchsortedRight starts s - 1) 0 :=
            sorted_getD_mono starts hsorted hk1 hLlt
          omega

/-- One axis lookup result: `self.info.mintron_extents_by_chrom.get((chrom,
strand), [None, None])` resp. `intergenic_extents_by_chrom.get(chrom,
[None, None])` (`intron_quant.py` lines 96–98).  `none` is the
`[None, None]` default for an absent (chromosome, strand) key; the
per-block `if ... is not None` guard (lines 110, 130, 144) then makes the
block contribute nothing to that axis's touched set. -/
def axisTouched (axis : Option (List ℕ × List ℕ)) (s e : ℕ) : Finset ℕ :=
  match axis with
  | none => ∅
  | some (starts, ends) => blockTouched starts ends s e

/-- The per-fragment loop over all aligned blocks of both mates
(`intron_quant.py` lines 100–153): pysam blocks are 0-based half-open,
so each block start gets `+ 1` (line 107) before resolution against the
three axes (sense mintrons, antisense mintrons, intergenics); the three
touched sets grow by set union (`set.update`). -/
def fragmentAxes (senseAxis antiAxis interAxis : Option (List ℕ × List ℕ))
    (blocks : List (ℕ × ℕ)) : Finset ℕ × Finset ℕ × Finset ℕ :=
  blocks.foldl
    (fun acc b =>
      (acc.1 ∪ axisTouched senseAxis (b.1 + 1) b.2,
       acc.2.1 ∪ axisTouched antiAxis (b.1 + 1) b.2,
       acc.2.2 ∪ axisTouched interAxis (b.1 + 1) b.2))
    (∅, ∅, ∅)

/-- Single-axis form of the block loop, used to reason about
`fragmentAxes` one component at a time. -/
def fragAxisFrom (axis : Option (List ℕ × List ℕ)) (blocks : List (ℕ × ℕ))
    (init : Finset ℕ) : Finset ℕ :=
  blocks.foldl (fun acc b => acc ∪ axisTouched axis (b.1 + 1) b.2) init

theorem foldl_axes (sa aa ia : Option (List ℕ × List ℕ)) (blocks : List (ℕ × ℕ))
    (acc : Finset ℕ × Finset ℕ × Finset ℕ) :
    blocks.foldl
      (fun acc b =>
        (acc.1 ∪ axisTouched sa (b.1 + 1) b.2,
         acc.2.1 ∪ axisTouched aa (b.1 + 1) b.2,
         acc.2.2 ∪ axisTouched ia (b.1 + 1) b.2)) acc =
      (fragAxisFrom sa blocks acc.1, fragAxisFrom aa blocks acc.2.1,
       fragAxisFrom ia blocks acc.2.2) := by
  induction blocks generalizing acc with
  | nil => simp [fragAxisFrom]
  | cons b bs ih =>
    simp only [List.foldl_cons]
    rw [ih]
    rfl

theorem fragmentAxes_eq (sa aa ia : Option (List ℕ × List ℕ)) (blocks : List (ℕ × ℕ)) :
    fragmentAxes sa aa ia blocks =
      (fragAxisFrom sa blocks ∅, fragAxisFrom aa blocks ∅, fragAxisFrom ia blocks ∅) := by
  unfold fragmentAxes
  exact foldl_axes sa aa ia blocks (∅, ∅, ∅)

theorem fragAxisFrom_none (blocks : List (ℕ × ℕ)) (init : Finset ℕ) :
    fragAxisFrom none blocks init = init := by
  induction blocks generalizing init with
  | nil => rfl
  | cons b bs ih =>
    simp only [fragAxisFrom, List.foldl_cons] at *
    rw [show axisTouched none (b.1 + 1) b.2 = ∅ from rfl, Finset.union_empty]
    exact ih init

theorem mem_fragAxisFrom (axis : Option (List ℕ × List ℕ)) (blocks : List (ℕ × ℕ))
    (init : Finset ℕ) (m : ℕ) :
    m ∈ fragAxisFrom axis blocks init ↔
      m ∈ init ∨ ∃ b ∈ blocks, m ∈ axisTouched axis (b.1 + 1) b.2 := by
  induction blocks generalizing init with
  | nil => simp [fragAxisFrom]
  | cons b bs ih =>
    simp only [fragAxisFrom, List.foldl_cons] at *
    rw [ih]
    simp only [Finset.mem_union, List.mem_cons]
    constructor
    · rintro (( h | h) | ⟨b', hb', h⟩)
      · exact Or.inl h
      · exact Or.inr ⟨b, Or.inl rfl, h⟩
      · exact Or.inr ⟨b', Or.inr hb', h⟩
    · rintro (h | ⟨b', (rfl | hb'), h⟩)
      · exact Or.inl (Or.inl h)
      · exact Or.inl (Or.inr h)
      · exact Or.inr ⟨b', hb', h⟩

/-- C9: for every fragment, an absent sorted-interval axis (the `.get`
default `[None, None]`) contributes an empty touched-set for that axis
and leaves the other two axes' touched-sets exactly as they would be
with any arrays present; nothing is raised (the function is total). -/
theorem absent_axis_isolated (sa aa ia : Option (List ℕ × List ℕ))
    (blocks : List (ℕ × ℕ)) :
    fragmentAxes none aa ia blocks =
      (∅, (fragmentAxes sa aa ia blocks).2.1, (fragmentAxes sa aa ia blocks).2.2) ∧
    fragmentAxes sa none ia blocks =
      ((fragmentAxes sa aa ia blocks).1, ∅, (fragmentAxes sa aa ia blocks).2.2) ∧
    fragmentAxes sa aa none blocks =
      ((fragmentAxes sa aa ia blocks).1, (fragmentAxes sa aa ia blocks).2.1, ∅) := by
  simp [fragmentAxes_eq, fragAxisFrom_none]

/-- The inner increment loop `for intron in ...primary_introns:
counts[intron] += 1` (`intron_quant.py` lines 157–158, 161–162). -/
def bumpIntrons (introns : List ℕ) (counts : ℕ → ℕ) : ℕ → ℕ :=
  introns.foldl (fun c i => fun j => if j = i then c i + 1 else c j) counts

/-- The raw-count accumulation over the touched mintron set
(`intron_quant.py` lines 156–158): for every touched mintron index, for
every intron in that mintron's primary list, increment the intron's raw
count by one.  `touched` is the iteration order of the Python set. -/
def accumulateCounts (primaries : ℕ → List ℕ) (touched : List ℕ)
    (counts : ℕ → ℕ) : ℕ → ℕ :=
  touched.foldl (fun c m => bumpIntrons (primaries m) c) counts

theorem bumpIntrons_apply (l : List ℕ) (counts : ℕ → ℕ) (j : ℕ) :
    bumpIntrons l counts j = counts j + l.count j := by
  induction l generalizing counts with
  | nil => simp [bumpIntrons]
  | cons i l ih =>
    simp only [bumpIntrons, List.foldl_cons] at *
    rw [ih]
    by_cases hj : j = i
    · subst hj
      simp [List.count_cons]
      omega
    · simp [hj, List.count_cons]

theorem accumulateCounts_apply (primaries : ℕ → List ℕ) (touched : List ℕ)
    (counts : ℕ → ℕ) (j : ℕ) :
    accumulateCounts primaries touched counts j =
      counts j + (touched.map (fun m => (primaries m).count j)).sum := by
  induction touched generalizing counts with
  | nil => simp [accumulateCounts]
  | cons m ms ih =>
    simp only [accumulateCounts, List.foldl_cons] at *
    rw [ih, bumpIntrons_apply]
    simp [add_assoc]

/-- C7: the touched-bin set of a fragment is the union over all aligned
blocks of both mates — a bin is touched iff some block overlaps it — and
the accumulation step then adds exactly one to an intron's raw count per
touched mintron listing it as primary, no matter how many blocks of the
fragment overlap the same bin. -/
theorem fragment_counts_once_per_bin
    (starts ends : List ℕ) (blocks : List (ℕ × ℕ))
    (primaries : ℕ → List ℕ) (counts : ℕ → ℕ) (i : ℕ)
    (hnodup : ∀ m, (primaries m).Nodup) :
    (∀ m, m ∈ (fragmentAxes (some (starts, ends)) none none blocks).1 ↔
        ∃ b ∈ blocks, m ∈ blockTouched starts ends (b.1 + 1) b.2) ∧
    accumulateCounts primaries
        ((fragmentAxes (some (starts, ends)) none none blocks).1).toList counts i =
      counts i +
        ((fragmentAxes (some (starts, ends)) none none blocks).1.filter
            (fun m => i ∈ primaries m)).card := by
  constructor
  · intro m
    rw [fragmentAxes_eq]
    simpa [axisTouched] using mem_fragAxisFrom (some (starts, ends)) blocks ∅ m
  · rw [accumulateCounts_apply]
    congr 1
    rw [Finset.sum_to_list, Finset.card_filter]
    refine Finset.sum_congr rfl ?_
    intro m _
    rw [List.count_eq_of_nodup (hnodup m)]

/-- Witness: `blockTouched_exact` applied to the single bin `[100, 200]`
and the block `[150, 160]`. -/
theorem blockTouched_exact_witness :
    0 ∈ blockTouched [100] [200] 150 160 ↔
      0 < [100].length ∧ [100].getD 0 0 ≤ 160 ∧ 150 ≤ [200].getD 0 0 :=
  blockTouched_exact [100] [200] rfl (by simp)
    (by intro i hi; have h0 : i = 0 := by simp at hi; omega
        subst h0; decide)
    (by intro i hi; have hfalse : i + 1 < 1 := by simpa using hi
        omega) 150 160 (by norm_num) 0

/-- Witness: `fragment_counts_once_per_bin` on two bins `[10,20]`,
`[30,40]`, two overlapping blocks, and intron `7` primary everywhere. -/
theorem fragment_counts_once_per_bin_witness :
    ((∀ m, m ∈ (fragmentAxes (some ([10, 30], [20, 40])) none none [(9, 20), (12, 35)]).1 ↔
        ∃ b ∈ [(9, 20), (12, 35)], m ∈ blockTouched [10, 30] [20, 40] (b.1 + 1) b.2) ∧
      accumulateCounts (fun _ => [7])
          ((fragmentAxes (some ([10, 30], [20, 40])) none none [(9, 20), (12, 35)]).1).toList
          (fun _ => 0) 7 =
        (fun _ : ℕ => (0 : ℕ)) 7 +
          ((fragmentAxes (some ([10, 30], [20, 40])) none none [(9, 20), (12, 35)]).1.filter
              (fun m => 7 ∈ (fun _ : ℕ => ([7] : List ℕ)) m)).card) :=
  fragment_counts_once_per_bin [10, 30] [20, 40] [(9, 20), (12, 35)] (fun _ => [7])
    (fun _ => 0) 7 (by intro m; show ([7] : List ℕ).Nodup; decide)

/-- The alignment-record fields consulted by the pairing and strand
resolution logic of `intron_quant.py` (lines 59–91). -/
structure AlnRecord where
  isReverse : Bool
  isRead1 : Bool
  isRead2 : Bool
deriving DecidableEq

/-- Mate-pair strand resolution (`intron_quant.py` lines 81–91), for the
arriving record `read` paired against the cached `mate`: the
`assert read.is_reverse != mate.is_reverse` (line 83) is the fatal
consistency error, modelled as `Except.error`; otherwise the fragment
strand follows from `read1_reverse_aligned` (computed from the arriving
record's flags only) and the configured `forward_read_is_sense`. -/
def resolvePairStrand (forwardReadIsSense : Bool) (read mate : AlnRecord) :
    Except String Char :=
  if read.isReverse = mate.isReverse then
    Except.error "assert read.is_reverse != mate.is_reverse"
  else
    let read1ReverseAligned :=
      (read.isReverse && read.isRead1) || (!read.isReverse && read.isRead2)
    if forwardReadIsSense then
      Except.ok (if read1ReverseAligned then '-' else '+')
    else
      Except.ok (if read1ReverseAligned then '+' else '-')

/-- C8: a retained mate pair whose two records report the same
reverse-strand flag hits the `assert` (fatal, run aborts); when the two
flags differ no error is raised and a strand is produced. -/
theorem same_reverse_flag_fatal (f : Bool) (read mate : AlnRecord) :
    (resolvePairStrand f read mate =
        Except.error "assert read.is_reverse != mate.is_reverse" ↔
      read.isReverse = mate.isReverse) ∧
    ((∃ c, resolvePairStrand f read mate = Except.ok c) ↔
      read.isReverse ≠ mate.isReverse) := by
  by_cases h : read.isReverse = mate.isReverse
  · unfold resolvePairStrand
    rw [if_pos h]
    exact ⟨⟨fun _ => h, fun _ => rfl⟩,
      ⟨fun hc => Except.noConfusion hc.choose_spec, fun hne => absurd h hne⟩⟩
  · unfold resolvePairStrand
    rw [if_neg h]
    refine ⟨⟨fun hres => ?_, fun hres => absurd hres h⟩,
      ⟨fun _ => h, fun _ => ?_⟩⟩
    · cases f <;> simp at hres
    · cases f <;> exact ⟨_, rfl⟩

/-- C10: for a mate pair with complementary read1/read2 designations and
opposite reverse-strand flags, the resolved fragment strand does not
depend on which mate arrived first (was cached) and which triggered the
pairing. -/
theorem strand_resolution_commutes (f : Bool) (a b : AlnRecord)
    (hrev : a.isReverse = !b.isReverse)
    (h12 : a.isRead1 = b.isRead2)
    (h21 : a.isRead2 = b.isRead1) :
    resolvePairStrand f a b = resolvePairStrand f b a := by
  rcases a with ⟨ar, a1, a2⟩
  rcases b with ⟨br, b1, b2⟩
  simp only at hrev h12 h21
  cases f <;> cases ar <;> cases br <;> cases a1 <;> cases b1 <;>
    cases a2 <;> cases b2 <;>
      first
        | rfl
        | exact absurd hrev (by decide)
        | exact absurd h12 (by decide)
        | exact absurd h21 (by decide)

/-- Witness: `strand_resolution_commutes` on a concrete proper pair
(forward read1, reverse read2). -/
theorem strand_resolution_commutes_witness :
    resolvePairStrand true ⟨false, true, false⟩ ⟨true, false, true⟩ =
      resolvePairStrand true ⟨true, false, true⟩ ⟨false, true, false⟩ :=
  strand_resolution_commutes true ⟨false, true, false⟩ ⟨true, false, true⟩
    (by decide) (by decide) (by decide)

/-- A merged intron bin ("mintron") as consulted by the correction pass:
its sense-primary and antisense-primary intron sets
(`mintron.primary_introns`, `mintron.primary_antisense_introns`),
identified by intron ids. -/
structure Mintron where
  primaryIntrons : List ℕ
  primaryAntisenseIntrons : List ℕ

/-- The per-intron relationship data consulted by the correction pass:
the mintrons an intron belongs to on its own strand and on the opposite
strand (`intron.mintrons`, `intron.antisense_mintrons`). -/
structure IntronInfo where
  mintrons : List Mintron
  antisenseMintrons : List Mintron

/-- The two mutable `collections.Counter` tables rewritten by the
corrector (`self.intron_normalized_counts`,
`self.intron_normalized_antisense_counts`); a Counter read defaults to
`0` for an absent key, so they are total functions here. -/
structure CorrState where
  sense : ℕ → ℚ
  anti : ℕ → ℚ

/-- Inner loop `for other_intron in mintron.primary_introns:` of the
correction (`intron_quant.py` lines 191–194, and 200–203 for the
antisense table): each listed intron's stored count is re-read and
replaced by `min(stored - c, 0)`. -/
def correctPrimaries (primaries : List ℕ) (c : ℚ) (tab : ℕ → ℚ) : ℕ → ℚ :=
  match primaries with
  | [] => tab
  | p :: rest =>
    correctPrimaries rest c (fun j => if j = p then min (tab p - c) 0 else tab j)

/-- `for mintron in intron.mintrons: if intron not in
mintron.primary_introns: ...` (`intron_quant.py` lines 189–194). -/
def correctSenseMintrons (i : ℕ) (ms : List Mintron) (c : ℚ) (tab : ℕ → ℚ) : ℕ → ℚ :=
  match ms with
  | [] => tab
  | M :: rest =>
    correctSenseMintrons i rest c
      (if i ∈ M.primaryIntrons then tab else correctPrimaries M.primaryIntrons c tab)

/-- `for antisense_mintron in intron.antisense_mintrons: if intron not in
antisense_mintron.primary_antisense_introns: ...` (`intron_quant.py`
lines 198–203). -/
def correctAntiMintrons (i : ℕ) (ms : List Mintron) (c : ℚ) (tab : ℕ → ℚ) : ℕ → ℚ :=
  match ms with
  | [] => tab
  | M :: rest =>
    correctAntiMintrons i rest c
      (if i ∈ M.primaryAntisenseIntrons then tab
       else correctPrimaries M.primaryAntisenseIntrons c tab)

/-- One intron's correction step (`intron_quant.py` lines 184–203):
`count` is read once from the sense table (line 185); when it is zero
the intron is skipped entirely (`continue`, line 187), including its
antisense handling; the antisense subtraction amount is then re-read
with `self.intron_normalized_counts.get(intron, 0)` — the *sense*
table — exactly as line 197 of the source does. -/
def correctIntron (env : ℕ → IntronInfo) (st : CorrState) (i : ℕ) : CorrState :=
  let count := st.sense i
  if count = 0 then st
  else
    let sense1 := correctSenseMintrons i (env i).mintrons count st.sense
    let antisenseCount := sense1 i
    let anti1 := correctAntiMintrons i (env i).antisenseMintrons antisenseCount st.anti
    ⟨sense1, anti1⟩

/-- `for transcript in transcripts: for intron in transcript.introns:`
(`intron_quant.py` lines 183–184). -/
def correctTranscript (env : ℕ → IntronInfo) (st : CorrState) (introns : List ℕ) :
    CorrState :=
  introns.foldl (correctIntron env) st

/-- The full double-count-correction pass (`intron_quant.py` lines
182–203): transcripts walked per chromosome in order, here flattened to
the resulting ordered list of per-transcript intron-id lists. -/
def correctAll (env : ℕ → IntronInfo) (transcripts : List (List ℕ)) (st : CorrState) :
    CorrState :=
  transcripts.foldl (correctTranscript env) st

theorem correctPrimaries_not_mem (l : List ℕ) (c : ℚ) (tab : ℕ → ℚ) (j : ℕ)
    (h : j ∉ l) : correctPrimaries l c tab j = tab j := by
  induction l generalizing tab with
  | nil => rfl
  | cons p ps ih =>
    have hne : j ≠ p := fun he => h (he ▸ List.mem_cons_self p ps)
    unfold correctPrimaries
    rw [ih _ (fun hm => h (List.mem_cons_of_mem p hm))]
    simp [hne]

theorem correctPrimaries_mem (l : List ℕ) (c : ℚ) (tab : ℕ → ℚ) (j : ℕ)
    (hnd : l.Nodup) (h : j ∈ l) :
    correctPrimaries l c tab j = min (tab j - c) 0 := by
  induction l generalizing tab with
  | nil => cases h
  | cons p ps ih =>
    unfold correctPrimaries
    rcases List.mem_cons.mp h with rfl | hmem
    · rw [correctPrimaries_not_mem ps c _ j (List.nodup_cons.mp hnd).1]
      simp
    · have hne : j ≠ p := by
        intro he
        subst he
        exact (List.nodup_cons.mp hnd).1 hmem
      rw [ih _ (List.nodup_cons.mp hnd).2 hmem]
      simp [hne]

/-- Concrete chromosome for the negative-count run: intron 1 belongs to
one mintron whose sole sense-primary intron is intron 2. -/
def negEnv : ℕ → IntronInfo := fun n =>
  if n = 1 then ⟨[⟨[2], []⟩], []⟩ else ⟨[], []⟩

/-- Normalized counts before correction: intron 1 has sense FPK 5,
intron 2 (the primary) has sense FPK 1. -/
def negState : CorrState :=
  ⟨fun n => if n = 1 then 5 else if n = 2 then 1 else 0, fun _ => 0⟩

/-- C1: the correction's subtraction `min(other_counts - count, 0)`
(line 194) *does* drive a primary intron's stored count below zero,
contradicting both the claim and the source's own comment "never give
negative expression": after the pass, intron 2's stored sense count is
`min(1 - 5, 0) = -4 < 0`. -/
theorem correction_goes_negative :
    (correctAll negEnv [[1]] negState).sense 2 = -4 ∧
    (correctAll negEnv [[1]] negState).sense 2 < 0 := by
  have h : (correctAll negEnv [[1]] negState).sense 2 = -4 := by
    simp only [correctAll, correctTranscript, List.foldl_cons, List.foldl_nil]
    simp only [correctIntron, correctSenseMintrons, correctAntiMintrons,
      correctPrimaries, negEnv, negState]
    norm_num
  exact ⟨h, by rw [h]; norm_num⟩

/-- Normalized counts before correction for the clamp counterexample:
intron 1 has sense FPK 3, intron 2 (the primary) has sense FPK 10. -/
def clampState : CorrState :=
  ⟨fun n => if n = 1 then 3 else if n = 2 then 10 else 0, fun _ => 0⟩

/-- C2 counterexample: the claim predicts intron 2's count after
correction to be its prior count minus intron 1's count, `10 - 3 = 7`;
the code stores `min(10 - 3, 0) = 0` instead. -/
theorem subtraction_not_exact_counterexample :
    (correctAll negEnv [[1]] clampState).sense 2 = 0 ∧
    (correctAll negEnv [[1]] clampState).sense 2 ≠ 10 - 3 := by
  have h : (correctAll negEnv [[1]] clampState).sense 2 = 0 := by
    simp only [correctAll, correctTranscript, List.foldl_cons, List.foldl_nil]
    simp only [correctIntron, correctSenseMintrons, correctAntiMintrons,
      correctPrimaries, negEnv, clampState]
    norm_num
  exact ⟨h, by rw [h]; norm_num⟩

/-- The `n`-fold application of the correction's clamped subtraction
`x ↦ min(x - c, 0)` (`intron_quant.py` line 194): one application per
qualifying (intron, mintron) pair. -/
def clampIter (c : ℚ) : ℕ → ℚ → ℚ
  | 0, x => x
  | n + 1, x => clampIter c n (min (x - c) 0)

theorem correctSenseMintrons_apply (i : ℕ) (ms : List Mintron) (c : ℚ)
    (tab : ℕ → ℚ) (P : ℕ)
    (hnd : ∀ M ∈ ms, M.primaryIntrons.Nodup) :
    correctSenseMintrons i ms c tab P =
      clampIter c
        (ms.countP (fun M => decide (i ∉ M.primaryIntrons ∧ P ∈ M.primaryIntrons)))
        (tab P) := by
  induction ms generalizing tab with
  | nil => rfl
  | cons M rest ih =>
    unfold correctSenseMintrons
    rw [List.countP_cons]
    have hrest : ∀ M' ∈ rest, M'.primaryIntrons.Nodup :=
      fun M' hM' => hnd M' (List.mem_cons_of_mem M hM')
    by_cases hiM : i ∈ M.primaryIntrons
    · have hpred : decide (i ∉ M.primaryIntrons ∧ P ∈ M.primaryIntrons) = false := by
        simp [hiM]
      rw [if_pos hiM, hpred]
      simp only [Bool.false_eq_true, if_false, Nat.add_zero]
      exact ih tab hrest
    · rw [if_neg hiM]
      by_cases hPM : P ∈ M.primaryIntrons
      · have hpred : decide (i ∉ M.primaryIntrons ∧ P ∈ M.primaryIntrons) = true := by
          simp [hiM, hPM]
        rw [hpred]
        simp only [if_true]
        rw [ih _ hrest,
          correctPrimaries_mem _ _ _ _ (hnd M (List.mem_cons_self M rest)) hPM]
        rfl
      · have hpred : decide (i ∉ M.primaryIntrons ∧ P ∈ M.primaryIntrons) = false := by
          simp [hPM]
        rw [hpred]
        simp only [Bool.false_eq_true, if_false, Nat.add_zero]
        rw [ih _ hrest, correctPrimaries_not_mem _ _ _ _ hPM]

/-- C2 amended: for every intron `I` with nonzero stored sense count `c`,
the correction step replaces each intron `P`'s stored count by the
clamped subtraction `x ↦ min(x - c, 0)` applied exactly once per mintron
of `I` in which `I` is not sense-primary and `P` is sense-primary — once
per (intron, mintron) pair, not per fragment; in particular a single
such pair stores `min(before - c, 0)`, not the claim's `before - c`. -/
theorem correction_min_clamp_once
    (env : ℕ → IntronInfo) (st : CorrState) (i P : ℕ)
    (hc : st.sense i ≠ 0)
    (hnd : ∀ M ∈ (env i).mintrons, M.primaryIntrons.Nodup) :
    (correctIntron env st i).sense P =
      clampIter (st.sense i)
        (((env i).mintrons).countP
          (fun M => decide (i ∉ M.primaryIntrons ∧ P ∈ M.primaryIntrons)))
        (st.sense P) := by
  simp only [correctIntron]
  rw [if_neg hc]
  exact correctSenseMintrons_apply i (env i).mintrons (st.sense i) st.sense P hnd

/-- Intron 1 belongs to two mintrons, in neither of which it is
sense-primary; intron 2 is sense-primary in both. -/
def twoMintronEnv : ℕ → IntronInfo := fun n =>
  if n = 1 then ⟨[⟨[2], []⟩, ⟨[2, 3], []⟩], []⟩ else ⟨[], []⟩

/-- Witness: `correction_min_clamp_once` with intron 1 (count 3) a
non-primary member of two mintrons, both listing intron 2 (count 10) as
sense-primary: the clamp is applied once per (intron, mintron) pair. -/
theorem correction_min_clamp_once_witness :
    (correctIntron twoMintronEnv clampState 1).sense 2 =
      clampIter (clampState.sense 1)
        (((twoMintronEnv 1).mintrons).countP
          (fun M => decide (1 ∉ M.primaryIntrons ∧ 2 ∈ M.primaryIntrons)))
        (clampState.sense 2) :=
  correction_min_clamp_once twoMintronEnv clampState 1 2
    (by norm_num [clampState]) (by decide)

/-- Concrete chromosome for the antisense run: intron 1 belongs (as a
non-primary antisense member) to one antisense mintron whose sole
antisense-primary intron is intron 2. -/
def antiEnv : ℕ → IntronInfo := fun n =>
  if n = 1 then ⟨[], [⟨[], [2]⟩]⟩ else ⟨[], []⟩

/-- Intron 1: antisense FPK 5 but zero sense FPK; intron 2 (antisense
primary): antisense FPK 7. -/
def antiStateZeroSense : CorrState :=
  ⟨fun _ => 0, fun n => if n = 1 then 5 else if n = 2 then 7 else 0⟩

/-- Intron 1: sense FPK 2 and antisense FPK 5; intron 2 (antisense
primary): antisense FPK 1. -/
def antiStateNonzeroSense : CorrState :=
  ⟨fun n => if n = 1 then 2 else 0,
   fun n => if n = 1 then 5 else if n = 2 then 1 else 0⟩

/-- C3: the antisense correction does not mirror the sense correction
independently.  First run: intron 1 has nonzero antisense count 5, yet
because its *sense* count is zero the `continue` on line 187 skips it
and antisense-primary intron 2 keeps count 7 (the claim requires a
reduction by 5).  Second run: with sense count 2 and antisense count 5,
the amount subtracted is the sense count read on line 197, giving
`min(1 - 2, 0) = -1` rather than the claim's `1 - 5`. -/
theorem antisense_correction_not_independent :
    (correctAll antiEnv [[1]] antiStateZeroSense).anti 2 = 7 ∧
    (correctAll antiEnv [[1]] antiStateNonzeroSense).anti 2 = -1 := by
  constructor
  · simp only [correctAll, correctTranscript, List.foldl_cons, List.foldl_nil]
    simp only [correctIntron, antiStateZeroSense]
    norm_num
  · simp only [correctAll, correctTranscript, List.foldl_cons, List.foldl_nil]
    simp only [correctIntron, correctSenseMintrons, correctAntiMintrons,
      correctPrimaries, antiEnv, antiStateNonzeroSense]
    norm_num

/-- The normalization pass (`intron_quant.py` lines 168–176): iterate
the entries of the sense raw-count Counter (`intron_read_counts.items()`
— `senseKeys` is its key iteration order, `senseRaw` its values), store
the sense FPK `raw / effective_length * 1000` unconditionally for each
key, and the antisense FPK `raw_antisense / antisense_effective_length *
1000` only when that key's antisense raw count is nonzero (line 175).
Both tables start empty; presence of an entry is `Option.some`. -/
def normalizeCounts (senseKeys : List ℕ) (senseRaw antisenseRaw : ℕ → ℕ)
    (eff aeff : ℕ → ℚ) : (ℕ → Option ℚ) × (ℕ → Option ℚ) :=
  senseKeys.foldl
    (fun tabs i =>
      ((fun j => if j = i then some ((senseRaw i : ℚ) / eff i * 1000) else tabs.1 j),
       if 0 < antisenseRaw i then
         (fun j => if j = i then some ((antisenseRaw i : ℚ) / aeff i * 1000) else tabs.2 j)
       else tabs.2))
    (fun _ => none, fun _ => none)

theorem normalize_anti_from (senseRaw antisenseRaw : ℕ → ℕ) (eff aeff : ℕ → ℚ)
    (keys : List ℕ) (init : (ℕ → Option ℚ) × (ℕ → Option ℚ)) (j : ℕ) :
    (keys.foldl
      (fun (tabs : (ℕ → Option ℚ) × (ℕ → Option ℚ)) (i : ℕ) =>
        ((fun j => if j = i then some ((senseRaw i : ℚ) / eff i * 1000) else tabs.1 j),
         if 0 < antisenseRaw i then
           (fun j => if j = i then some ((antisenseRaw i : ℚ) / aeff i * 1000) else tabs.2 j)
         else tabs.2))
      init).2 j =
      if j ∈ keys ∧ 0 < antisenseRaw j then
        some ((antisenseRaw j : ℚ) / aeff j * 1000)
      else init.2 j := by
  induction keys generalizing init with
  | nil => simp
  | cons i rest ih =>
    rw [List.foldl_cons, ih]
    by_cases hmem : j ∈ rest ∧ 0 < antisenseRaw j
    · simp [hmem, hmem.1, hmem.2]
    · rw [if_neg hmem]
      have hcons : ∀ hij : j ≠ i, ¬ (j ∈ i :: rest ∧ 0 < antisenseRaw j) := by
        rintro hij ⟨hj, hja⟩
        rcases List.mem_cons.mp hj with rfl | hjr
        · exact hij rfl
        · exact hmem ⟨hjr, hja⟩
      by_cases hij : j = i
      · subst hij
        by_cases hpos : 0 < antisenseRaw j
        · simp [hpos]
        · simp [hpos, hmem]
      · rw [if_neg (hcons hij)]
        by_cases hpos : 0 < antisenseRaw i
        · simp [hpos, hij]
        · simp [hpos]

/-- C5 amended: an entry in the antisense normalized-count table exists
iff the intron has a nonzero raw *sense* count (so it is a key of the
sense raw Counter the loop iterates) *and* a nonzero raw antisense
count; when present it equals `raw_antisense / antisense_effective_length
* 1000`.  A zero raw antisense count — and likewise a zero raw sense
count — yields absence, not a zero-valued entry. -/
theorem antisense_entry_iff (senseKeys : List ℕ) (senseRaw antisenseRaw : ℕ → ℕ)
    (eff aeff : ℕ → ℚ) (i : ℕ) (v : ℚ)
    (hkeys : ∀ j, j ∈ senseKeys ↔ 0 < senseRaw j) :
    (normalizeCounts senseKeys senseRaw antisenseRaw eff aeff).2 i = some v ↔
      0 < senseRaw i ∧ 0 < antisenseRaw i ∧
        v = (antisenseRaw i : ℚ) / aeff i * 1000 := by
  unfold normalizeCounts
  rw [normalize_anti_from]
  by_cases hc : i ∈ senseKeys ∧ 0 < antisenseRaw i
  · rw [if_pos hc]
    simp only [Option.some_inj]
    constructor
    · intro hv
      exact ⟨(hkeys i).mp hc.1, hc.2, hv.symm⟩
    · intro ⟨_, _, hv⟩
      exact hv.symm
  · rw [if_neg hc]
    constructor
    · intro h
      exact Option.noConfusion h
    · rintro ⟨hs, ha, -⟩
      exact absurd ⟨(hkeys i).mpr hs, ha⟩ hc

/-- C5 counterexample: intron 1 has raw antisense count 1 (nonzero) but
no sense reads, so it is not a key of the sense Counter the
normalization loop iterates; no antisense entry is produced, while the
claim requires one. -/
theorem antisense_entry_missing_counterexample :
    (fun _ : ℕ => (1 : ℕ)) 1 ≠ 0 ∧
    (normalizeCounts [] (fun _ => 0) (fun _ => 1) (fun _ => 100) (fun _ => 100)).2 1 =
      none :=
  ⟨by decide, rfl⟩

/-- Witness: `antisense_entry_iff` with intron 1 having raw sense count 2
and raw antisense count 3 over antisense effective length 100. -/
theorem antisense_entry_iff_witness :
    (normalizeCounts [1] (fun n => if n = 1 then 2 else 0) (fun _ => 3)
        (fun _ => 100) (fun _ => 100)).2 1 = some 30 ↔
      0 < (fun n => if n = 1 then 2 else 0) 1 ∧ 0 < (fun _ : ℕ => (3 : ℕ)) 1 ∧
        (30 : ℚ) = ((fun _ : ℕ => (3 : ℕ)) 1 : ℚ) / (fun _ : ℕ => (100 : ℚ)) 1 * 1000 :=
  antisense_entry_iff [1] (fun n => if n = 1 then 2 else 0) (fun _ => 3)
    (fun _ => 100) (fun _ => 100) 1 30
    (by intro j; by_cases h : j = 1 <;> simp [h])

/-- The transcript-level aggregation (`intron_quant.py` lines 205–227):
the flank introns — first and last, `transcript.introns[1:-1]` — are
excluded; over the remaining introns the loop accumulates
`normalized_count * effective_length` for sense and antisense (both
weighted by the intron's *sense* `effective_length`, lines 218–219) and
the total effective length; a zero total length reports exactly `(0, 0)`
instead of dividing (lines 222–224).  The single Python loop's three
running sums are three folds here. -/
def transcriptQuant (sense anti eff : ℕ → ℚ) (introns : List ℕ) : ℚ × ℚ :=
  let nonFlank := (introns.drop 1).dropLast
  let senseCounts := nonFlank.foldl (fun acc i => acc + sense i * eff i) 0
  let antiCounts := nonFlank.foldl (fun acc i => acc + anti i * eff i) 0
  let totalLength := nonFlank.foldl (fun acc i => acc + eff i) 0
  if totalLength = 0 then (0, 0)
  else (senseCounts / totalLength, antiCounts / totalLength)

theorem foldl_add_eq_sum (f : ℕ → ℚ) (l : List ℕ) (a : ℚ) :
    l.foldl (fun acc i => acc + f i) a = a + (l.map f).sum := by
  induction l generalizing a with
  | nil => simp
  | cons x xs ih =>
    simp only [List.foldl_cons, List.map_cons, List.sum_cons]
    rw [ih]
    ring

/-- C6: the reported transcript-level rates equal the weighted average
`Σ(normalized_count · effective_length) / Σ(effective_length)` over the
non-flank introns (sense and antisense each with their own counts but
the sense effective length as weight), and any transcript with at most
two introns — an empty non-flank list, total length zero — reports
exactly `(0, 0)` rather than an undefined division. -/
theorem transcript_rate_weighted_average (sense anti eff : ℕ → ℚ)
    (introns : List ℕ) :
    (transcriptQuant sense anti eff introns =
      if (((introns.drop 1).dropLast).map eff).sum = 0 then (0, 0)
      else
        (((((introns.drop 1).dropLast).map (fun i => sense i * eff i)).sum /
            (((introns.drop 1).dropLast).map eff).sum),
         ((((introns.drop 1).dropLast).map (fun i => anti i * eff i)).sum /
            (((introns.drop 1).dropLast).map eff).sum))) ∧
    (introns.length ≤ 2 → transcriptQuant sense anti eff introns = (0, 0)) := by
  have hq : transcriptQuant sense anti eff introns =
      if (((introns.drop 1).dropLast).map eff).sum = 0 then (0, 0)
      else
        (((((introns.drop 1).dropLast).map (fun i => sense i * eff i)).sum /
            (((introns.drop 1).dropLast).map eff).sum),
         ((((introns.drop 1).dropLast).map (fun i => anti i * eff i)).sum /
            (((introns.drop 1).dropLast).map eff).sum)) := by
    simp only [transcriptQuant]
    rw [foldl_add_eq_sum, foldl_add_eq_sum, foldl_add_eq_sum]
    simp only [zero_add]
  refine ⟨hq, fun hlen => ?_⟩
  have hnil : (introns.drop 1).dropLast = [] := by
    have : ((introns.drop 1).dropLast).length = 0 := by
      rw [List.length_dropLast, List.length_drop]
      omega
    exact List.eq_nil_of_length_eq_zero this
  rw [hq, hnil]
  simp

/-- Witness: `transcript_rate_weighted_average` on a two-intron
transcript (both introns are flanks, so both rates are zero). -/
theorem transcript_rate_weighted_average_witness :
    (transcriptQuant (fun _ => 3) (fun _ => 1) (fun _ => 2) [1, 2] =
      if ((([1, 2].drop 1).dropLast).map (fun _ : ℕ => (2 : ℚ))).sum = 0 then
        ((0 : ℚ), (0 : ℚ))
      else
        (((([1, 2].drop 1).dropLast).map
              (fun i => (fun _ : ℕ => (3 : ℚ)) i * (fun _ : ℕ => (2 : ℚ)) i)).sum /
            ((([1, 2].drop 1).dropLast).map (fun _ : ℕ => (2 : ℚ))).sum,
         ((([1, 2].drop 1).dropLast).map
              (fun i => (fun _ : ℕ => (1 : ℚ)) i * (fun _ : ℕ => (2 : ℚ)) i)).sum /
            ((([1, 2].drop 1).dropLast).map (fun _ : ℕ => (2 : ℚ))).sum)) ∧
    ([1, 2] : List ℕ).length ≤ 2 ∧
    transcriptQuant (fun _ => 3) (fun _ => 1) (fun _ => 2) [1, 2] = (0, 0) := by
  have h := transcript_rate_weighted_average (fun _ => 3) (fun _ => 1) (fun _ => 2) [1, 2]
  exact ⟨h.1, by decide, h.2 (by decide)⟩

end IntronQuant
